import Mathlib

/-
Verification of the hybrid retrieval engine of the pdf-document-rag backend.

Shallow embedding of:
  backend/app/core/enhanced_vector_store.py  (hybrid_search, _combine_multiple_search_results,
    _rerank_results, _calculate_keyword_score, search_similar_chunks_with_cache)
  backend/app/core/cache_manager.py          (CacheManager.get / set / _is_expired)
  backend/app/core/agent_core.py             (_calculate_enhanced_confidence,
    _evaluate_answer_completeness)

Python floats are modelled as rationals (ℚ); Python dicts as insertion-ordered
association lists; the external collaborators (jieba tokenizer, Chroma vector
store) as opaque function / data parameters.  Exceptions are modelled with
Except where the source has a try/except boundary.
-/

namespace PdfRag

/-- A search-result record as the Python code passes it around: a dict holding
the chunk text (the fusion key), the current `similarity_score`, the chunk's
`quality_score` (modelling `metadata.get('quality_score', 0.5)`), and the three
per-track scores added by the fusion step (absent before fusion, modelled as 0). -/
structure SearchResult where
  content : String
  similarity_score : ℚ
  quality_score : ℚ
  vector_score : ℚ := 0
  keyword_score : ℚ := 0
  semantic_score : ℚ := 0
deriving DecidableEq, Repr

/-- Python `max(l)` for a non-empty list (`[]` case is unreachable in the code paths
where it is used; 0 is a harmless default). -/
def listMaxD : List ℚ → ℚ
  | [] => 0
  | x :: xs => xs.foldl max x

/-- Python `min(l)` for a non-empty list. -/
def listMinD : List ℚ → ℚ
  | [] => 0
  | x :: xs => xs.foldl min x

/-- The value the inner `normalize_scores` helper of
`_combine_multiple_search_results` assigns to a raw score `s`, given the
maximum `M` and minimum `m` of the score list: 1.0 when all scores are equal,
otherwise min-max normalization. -/
def normVal (M m s : ℚ) : ℚ := if M = m then 1 else (s - m) / (M - m)

/-- `normalize_scores` (enhanced_vector_store.py lines 382-398): per-list min-max
normalization of `similarity_score`; an all-equal list is set to 1.0. -/
def normalize_scores (results : List SearchResult) : List SearchResult :=
  if results = [] then results
  else
    let scores := results.map (·.similarity_score)
    let max_score := listMaxD scores
    let min_score := listMinD scores
    results.map (fun r => { r with similarity_score := normVal max_score min_score r.similarity_score })

/-- Stable descending insertion of `x` into a list already built by the sort:
`x` is placed after every element whose key is ≥ its own, which is exactly the
tie behaviour of Python's stable `list.sort(key=..., reverse=True)`. -/
def insertDesc (key : SearchResult → ℚ) (x : SearchResult) : List SearchResult → List SearchResult
  | [] => [x]
  | y :: ys => if key x ≤ key y then y :: insertDesc key x ys else x :: y :: ys

/-- Python's stable `list.sort(key=..., reverse=True)` as a stable insertion sort. -/
def sortByDesc (key : SearchResult → ℚ) (l : List SearchResult) : List SearchResult :=
  l.foldl (fun acc x => insertDesc key x acc) []

/-- One step of the keyword-result loop of `_combine_multiple_search_results`
(lines 419-429): if the content is already in the map, set its
`keyword_score` in place; otherwise append a new entry whose vector and
semantic scores default to 0. -/
def addKw (m : List SearchResult) (r : SearchResult) : List SearchResult :=
  if m.any (fun e => e.content = r.content) then
    m.map (fun e => if e.content = r.content then { e with keyword_score := r.similarity_score } else e)
  else
    m ++ [{ r with vector_score := 0, keyword_score := r.similarity_score, semantic_score := 0 }]

/-- One step of the semantic-result loop (lines 432-442), analogous to `addKw`. -/
def addSem (m : List SearchResult) (r : SearchResult) : List SearchResult :=
  if m.any (fun e => e.content = r.content) then
    m.map (fun e => if e.content = r.content then { e with semantic_score := r.similarity_score } else e)
  else
    m ++ [{ r with vector_score := 0, keyword_score := 0, semantic_score := r.similarity_score }]

/-- The content-keyed map of `_combine_multiple_search_results` after the three
insertion loops, in Python dict insertion order: vector entries first (each
with `vector_score := similarity_score`, other tracks 0), then keyword-only
entries, then semantic-only entries. -/
def vecEntry (r : SearchResult) : SearchResult :=
  { r with vector_score := r.similarity_score, keyword_score := 0, semantic_score := 0 }

def buildContentMap (vec kw sem : List SearchResult) : List SearchResult :=
  let base := vec.map vecEntry
  (sem.foldl addSem (kw.foldl addKw base))

/-- The fused score assigned at lines 447-452:
alpha × vector + (1-alpha) × 0.6 × keyword + (1-alpha) × 0.4 × semantic. -/
def combinedScore (alpha : ℚ) (e : SearchResult) : ℚ :=
  alpha * e.vector_score + (1 - alpha) * (6/10) * e.keyword_score + (1 - alpha) * (4/10) * e.semantic_score

/-- `_combine_multiple_search_results` (lines 373-458): normalize each input list,
build the content map, write the fused score into `similarity_score`, and sort
descending (Python's sort is stable). -/
def combine_multiple_search_results (vec kw sem : List SearchResult) (alpha : ℚ) : List SearchResult :=
  let m := buildContentMap (normalize_scores vec) (normalize_scores kw) (normalize_scores sem)
  sortByDesc (·.similarity_score) (m.map (fun e => { e with similarity_score := combinedScore alpha e }))

/-- The length-preference factor of `_rerank_results` (lines 477-484):
0.9 for a short query with long content or a long query with short content, else 1.0. -/
def lengthPreference (query_length content_length : ℕ) : ℚ :=
  if query_length < 20 then (if content_length > 1000 then 9/10 else 1)
  else if query_length > 50 then (if content_length < 200 then 9/10 else 1)
  else 1

/-- The per-result adjustment of `_rerank_results` (lines 469-494): the new
`similarity_score` (also stored as `final_score`) is
similarity × 0.7 + quality × 0.2 + length_preference × 0.1. -/
def rerankAdjust (query : String) (r : SearchResult) : SearchResult :=
  { r with similarity_score :=
      r.similarity_score * (7/10) + r.quality_score * (2/10)
        + lengthPreference query.length r.content.length * (1/10) }

/-- `_rerank_results` (lines 460-503): adjust every score, then re-sort descending
by the adjusted score. -/
def rerank_results (results : List SearchResult) (query : String) : List SearchResult :=
  if results = [] then results
  else sortByDesc (·.similarity_score) (results.map (rerankAdjust query))

/-- The body of `_enhanced_keyword_search` / `_semantic_matching_search` runs under
a try/except that turns any exception into an empty result list (lines 228-230
and 307-309).  The track body itself (Chroma scan + jieba scoring) is opaque
to this development and is therefore a parameter of type Except. -/
def trackGuard (body : Except Unit (List SearchResult)) : List SearchResult :=
  match body with
  | .ok r => r
  | .error _ => []

/-- `hybrid_search` (lines 126-163).  The try block runs query expansion (total:
it catches internally and falls back to the original query), the cached vector
search on the expanded query with limit 2k (`vecStep`, the one step whose
dynamic failures can escape to the outer except), the two guarded tracks,
fusion, rerank, and truncation to k.  The except branch returns the plain
cached vector search for the original query and k (`fallback`; total, since
every operation inside it catches its own exceptions). -/
def hybrid_search (query : String) (k : ℕ) (alpha : ℚ)
    (vecStep : Except Unit (List SearchResult))
    (kwBody semBody : Except Unit (List SearchResult))
    (fallback : List SearchResult) : List SearchResult :=
  match vecStep with
  | .ok vector_results =>
      let keyword_results := trackGuard kwBody
      let semantic_results := trackGuard semBody
      let combined := combine_multiple_search_results vector_results keyword_results semantic_results alpha
      (rerank_results combined query).take k
  | .error _ => fallback

/-! ## CacheManager (cache_manager.py) -/

/-- The state of a `CacheManager`: `memory_cache` and `cache_timestamps` are
Python dicts, modelled as insertion-ordered association lists with unique keys
(timestamps in seconds, as rationals). -/
structure CacheState (K V : Type) where
  memory_cache : List (K × V)
  cache_timestamps : List (K × ℚ)

/-- `self.memory_cache_maxsize = 1000` (cache_manager.py line 15). -/
def memory_cache_maxsize : ℕ := 1000

/-- Python dict read `d.get(k)`. -/
def dictGet {K V : Type} [DecidableEq K] (l : List (K × V)) (k : K) : Option V :=
  (l.find? (fun p => p.1 = k)).map (·.2)

/-- Python dict membership `k in d`. -/
def dictContains {K V : Type} [DecidableEq K] (l : List (K × V)) (k : K) : Bool :=
  l.any (fun p => p.1 = k)

/-- Python dict write `d[k] = v`: update in place if present (keeping the key's
insertion position), otherwise append at the end. -/
def dictSet {K V : Type} [DecidableEq K] (l : List (K × V)) (k : K) (v : V) : List (K × V) :=
  if dictContains l k then l.map (fun p => if p.1 = k then (k, v) else p)
  else l ++ [(k, v)]

/-- Python `del d[k]` (no error handling needed at the call sites we model). -/
def dictDelete {K V : Type} [DecidableEq K] (l : List (K × V)) (k : K) : List (K × V) :=
  l.filter (fun p => ¬ p.1 = k)

/-- `CacheManager.get` (cache_manager.py lines 33-39): a plain dict read.  Note
that it consults neither `cache_timestamps` nor any TTL. -/
def cacheGet {K V : Type} [DecidableEq K] (s : CacheState K V) (key : K) : Option V :=
  dictGet s.memory_cache key

/-- `CacheManager._is_expired` (lines 25-31): true when the key has no
timestamp or more than `expire` seconds have elapsed since it was stamped. -/
def is_expired {K V : Type} [DecidableEq K] (s : CacheState K V) (now : ℚ) (key : K) (expire : ℚ) : Bool :=
  match dictGet s.cache_timestamps key with
  | none => true
  | some cache_time => now - cache_time > expire

/-- `CacheManager.set` (lines 41-57): when the dict already holds
`memory_cache_maxsize` entries, delete the first-inserted key (and its
timestamp), then write the value and stamp the current time.  The `expire`
argument is accepted and ignored, exactly as in the source. -/
def cacheSet {K V : Type} [DecidableEq K] (s : CacheState K V) (now : ℚ) (key : K) (value : V)
    (expire : ℚ) : CacheState K V :=
  let s1 : CacheState K V :=
    if s.memory_cache.length ≥ memory_cache_maxsize then
      match s.memory_cache with
      | [] => s
      | (oldest_key, _) :: rest =>
          { memory_cache := rest, cache_timestamps := dictDelete s.cache_timestamps oldest_key }
    else s
  { memory_cache := dictSet s1.memory_cache key value,
    cache_timestamps := dictSet s1.cache_timestamps key now }

/-- `search_similar_chunks_with_cache` (enhanced_vector_store.py lines 26-48).
`searchResults` is what the underlying `search_similar_chunks` would return
for these arguments.  Returns the result list, the new cache state, and
whether the underlying search was invoked.  The cache hit test is Python
truthiness: `if cached_result:` is false for both `None` and `[]`. -/
def search_with_cache {K : Type} [DecidableEq K] (s : CacheState K (List SearchResult)) (now : ℚ)
    (key : K) (searchResults : List SearchResult) :
    List SearchResult × CacheState K (List SearchResult) × Bool :=
  match cacheGet s key with
  | some (x :: xs) => (x :: xs, s, false)
  | _ => (searchResults, cacheSet s now key searchResults 3600, true)

/-! ## Heap model of dict aliasing (for the cached-list mutation analysis)

Python search-result dicts are heap objects; a list of results is a list of
references.  `list.copy()` copies the list of references, not the dicts. -/

/-- A heap of result dicts, addressed by ℕ. -/
def Heap : Type := ℕ → SearchResult

/-- In-place mutation of the dict at address `a`. -/
def hUpdate (h : Heap) (a : ℕ) (r : SearchResult) : Heap :=
  fun x => if x = a then r else h x

/-- Python `list.copy()`: a new list object holding the same references, so as a
value of reference addresses it is unchanged. -/
def pyListCopy (l : List ℕ) : List ℕ := l

/-- `normalize_scores` acting on shared heap dicts: min and max are computed
from the current scores, then each referenced dict's `similarity_score` is
overwritten in place (`r['similarity_score'] = ...`). -/
def normalize_scores_heap (h : Heap) (results : List ℕ) : Heap :=
  if results = [] then h
  else
    let scores := results.map (fun a => (h a).similarity_score)
    let max_score := listMaxD scores
    let min_score := listMinD scores
    results.foldl
      (fun hh a =>
        hUpdate hh a { hh a with similarity_score := normVal max_score min_score (hh a).similarity_score })
      h

/-- The vector-list normalization step of `_combine_multiple_search_results`
(line 401) as executed by a `hybrid_search` cache hit: the cached address list
is obtained from the cache, `.copy()` duplicates only the list, and
`normalize_scores` mutates the shared dicts. -/
def hybridCacheHitNormalizeStep (h : Heap) (cachedAddrs : List ℕ) : Heap :=
  normalize_scores_heap h (pyListCopy cachedAddrs)

/-! ## Lexical scorer (_calculate_keyword_score) -/

/-- The stop-word set of `EnhancedVectorStore.__init__` (enhanced_vector_store.py
lines 19-24). -/
def stop_words : List String :=
  ["的", "了", "在", "是", "我", "有", "和", "就", "不", "人", "都", "一", "一个",
   "这", "那", "他", "她", "它", "们", "与", "及", "以", "为", "到", "从", "被",
   "把", "让", "使", "等", "等等", "如", "如果", "因为", "所以", "但是", "然而",
   "而且", "或者", "并且", "也", "还", "又", "再", "更", "最", "很", "非常"]

/-- The token filter of `_calculate_keyword_score` lines 513-514: keep tokens of
more than one character that are not stop words. -/
def filteredTokens (cut : String → List String) (text : String) : Finset String :=
  (cut text.toLower).toFinset.filter (fun w => 1 < w.length ∧ w ∉ stop_words)

/-- Python `word in content.lower()`: substring containment. -/
def pySubstr (w text : String) : Prop := w.toList <:+: text.toList

instance (w text : String) : Decidable (pySubstr w text) :=
  List.decidableInfix w.toList text.toList

/-- `_calculate_keyword_score` (lines 505-541): tokenize and filter both
strings (the tokenizer `cut` models `jieba.cut`); return 0 if the filtered
query set or the intersection is empty; otherwise Jaccard similarity plus an
exact-substring-match bonus (×0.5) plus a coverage bonus (×0.3), capped at 1. -/
def calculate_keyword_score (cut : String → List String) (content query : String) : ℚ :=
  let query_words := filteredTokens cut query
  let content_words := filteredTokens cut content
  if query_words = ∅ then 0
  else
    let intersection := query_words ∩ content_words
    if intersection = ∅ then 0
    else
      let jaccard_score : ℚ := (intersection.card : ℚ) / ((query_words ∪ content_words).card : ℚ)
      let exact_matches := (query_words.filter (fun w => pySubstr w content.toLower)).card
      let exact_match_bonus : ℚ := (exact_matches : ℚ) / (query_words.card : ℚ) * (1/2)
      let coverage_bonus : ℚ := (intersection.card : ℚ) / (query_words.card : ℚ) * (3/10)
      min (jaccard_score + exact_match_bonus + coverage_bonus) 1

/-! ## Confidence scoring (agent_core.py) -/

/-- The smaller stop-word set of `_evaluate_answer_completeness`
(agent_core.py line 457). -/
def stop_words_small : List String :=
  ["的", "了", "在", "是", "我", "有", "和", "就", "不", "人", "都", "一", "一个"]

/-- The terminal-punctuation test of line 448 (each candidate is a single
character, so Python substring containment is character containment). -/
def hasSentencePunct (answer : String) : Bool :=
  ['。', '！', '？', '.', '!', '?'].any (fun c => answer.contains c)

/-- `_evaluate_answer_completeness` (agent_core.py lines 437-469): 0.2 for
answers whose stripped length is below 20; otherwise a base of 0.5, plus 0.2
for terminal punctuation, plus 0.3 × (overlap of stop-word-filtered
question/answer token sets over the question set) when both are non-empty,
capped at 1. -/
def evaluate_answer_completeness (cut : String → List String) (answer question : String) : ℚ :=
  if answer.trim.length < 20 then 2/10
  else
    let s1 : ℚ := 1/2
    let s2 : ℚ := if hasSentencePunct answer then s1 + 2/10 else s1
    let question_words := (cut question.toLower).toFinset \ stop_words_small.toFinset
    let answer_words := (cut answer.toLower).toFinset \ stop_words_small.toFinset
    let s3 : ℚ :=
      if question_words ≠ ∅ ∧ answer_words ≠ ∅ then
        s2 + ((question_words ∩ answer_words).card : ℚ) / (question_words.card : ℚ) * (3/10)
      else s2
    min s3 1

/-- Python `round(x)` on an exact value: round half to even. -/
def pyRoundHalfEven (y : ℚ) : ℤ :=
  let f := ⌊y⌋
  let r := y - f
  if r < 1/2 then f
  else if 1/2 < r then f + 1
  else if f % 2 = 0 then f else f + 1

/-- Python `round(x, 3)`. -/
def pyRound3 (x : ℚ) : ℚ := (pyRoundHalfEven (x * 1000) : ℚ) / 1000

/-- `_calculate_enhanced_confidence` (agent_core.py lines 402-435): 0 for an
empty result list; otherwise 0.3 × max similarity + 0.3 × mean of
similarity × quality + 0.2 × min(n/3, 1) + 0.2 × answer completeness, capped
at 1 and rounded to 3 decimals. -/
def calculate_enhanced_confidence (cut : String → List String) (search_results : List SearchResult)
    (question answer : String) : ℚ :=
  if search_results = [] then 0
  else
    let base_confidence := listMaxD (search_results.map (·.similarity_score))
    let quality_weighted_confidence :=
      (search_results.map (fun r => r.similarity_score * r.quality_score)).sum
        / (search_results.length : ℚ)
    let coverage_confidence : ℚ := min ((search_results.length : ℚ) / 3) 1
    let answer_completeness := evaluate_answer_completeness cut answer question
    pyRound3 (min (base_confidence * (3/10) + quality_weighted_confidence * (3/10)
        + coverage_confidence * (2/10) + answer_completeness * (2/10)) 1)

/-- Helper to build a raw (pre-fusion) search result record. -/
def mkRes (c : String) (s q : ℚ) : SearchResult :=
  { content := c, similarity_score := s, quality_score := q }

/-- Well-formedness of a raw search result: similarity and quality in [0,1]. -/
def InBounds01 (r : SearchResult) : Prop :=
  0 ≤ r.similarity_score ∧ r.similarity_score ≤ 1 ∧ 0 ≤ r.quality_score ∧ r.quality_score ≤ 1

/-- Well-formedness of a content-map entry: all three track scores and the
quality score in [0,1]. -/
def TrackBounds (e : SearchResult) : Prop :=
  0 ≤ e.vector_score ∧ e.vector_score ≤ 1 ∧ 0 ≤ e.keyword_score ∧ e.keyword_score ≤ 1 ∧
    0 ≤ e.semantic_score ∧ e.semantic_score ≤ 1 ∧ 0 ≤ e.quality_score ∧ e.quality_score ≤ 1

/-- Relation between the runs of the fusion loops on two vector inputs that
agree everywhere except (possibly) in the vector score of the chunk whose
content is c: entries are pointwise equal in content, quality, keyword and
semantic scores, and the c-entry's vector score does not decrease. -/
def FusionRel (c : String) (a b : SearchResult) : Prop :=
  a.content = b.content ∧ a.quality_score = b.quality_score ∧
    a.keyword_score = b.keyword_score ∧ a.semantic_score = b.semantic_score ∧
    (a.content = c → a.vector_score ≤ b.vector_score)

/-- A concrete cache state at full capacity: keys 0..999 in insertion order. -/
def bigCache : CacheState ℕ ℕ :=
  { memory_cache := (List.range 1000).map (fun i => (i, i)),
    cache_timestamps := (List.range 1000).map (fun i => (i, (0 : ℚ))) }

/-! ## Basic lemmas: stable sort membership, list max/min, normalization -/

theorem mem_insertDesc {key : SearchResult → ℚ} {x e : SearchResult} {l : List SearchResult} :
    e ∈ insertDesc key x l ↔ e = x ∨ e ∈ l := by
  induction l with
  | nil => simp [insertDesc]
  | cons y ys ih =>
      by_cases h : key x ≤ key y
      · rw [insertDesc, if_pos h]
        simp only [List.mem_cons, ih]
        tauto
      · rw [insertDesc, if_neg h]
        simp only [List.mem_cons]

theorem mem_sortByDesc_aux {key : SearchResult → ℚ} {e : SearchResult} :
    ∀ (l acc : List SearchResult),
      (e ∈ l.foldl (fun a x => insertDesc key x a) acc ↔ e ∈ l ∨ e ∈ acc) := by
  intro l
  induction l with
  | nil => intro acc; simp
  | cons y ys ih =>
      intro acc
      simp only [List.foldl_cons, ih, mem_insertDesc, List.mem_cons]
      tauto

theorem mem_sortByDesc {key : SearchResult → ℚ} {e : SearchResult} {l : List SearchResult} :
    e ∈ sortByDesc key l ↔ e ∈ l := by
  simp [sortByDesc, mem_sortByDesc_aux]

theorem le_foldl_max (b : ℚ) (l : List ℚ) : b ≤ l.foldl max b := by
  induction l generalizing b with
  | nil => simp
  | cons y ys ih => exact le_trans (le_max_left b y) (ih (max b y))

theorem foldl_max_le_of_mem {x : ℚ} {l : List ℚ} (b : ℚ) (hx : x ∈ l) : x ≤ l.foldl max b := by
  induction l generalizing b with
  | nil => simp at hx
  | cons y ys ih =>
      rcases List.mem_cons.mp hx with rfl | hx
      · exact le_trans (le_max_right b x) (le_foldl_max _ ys)
      · exact ih (max b y) hx

theorem le_listMaxD {x : ℚ} {l : List ℚ} (hx : x ∈ l) : x ≤ listMaxD l := by
  cases l with
  | nil => simp at hx
  | cons y ys =>
      rw [listMaxD]
      rcases List.mem_cons.mp hx with rfl | hx
      · exact le_foldl_max x ys
      · exact foldl_max_le_of_mem y hx

theorem foldl_max_mem (b : ℚ) (l : List ℚ) : l.foldl max b = b ∨ l.foldl max b ∈ l := by
  induction l generalizing b with
  | nil => left; rfl
  | cons y ys ih =>
      rw [List.foldl_cons]
      rcases ih (max b y) with h | h
      · rcases max_choice b y with h2 | h2
        · left; rw [h, h2]
        · right; rw [h, h2]; exact List.mem_cons_self _ _
      · right; exact List.mem_cons_of_mem _ h

theorem listMaxD_mem {l : List ℚ} (h : l ≠ []) : listMaxD l ∈ l := by
  cases l with
  | nil => exact absurd rfl h
  | cons y ys =>
      rw [listMaxD]
      rcases foldl_max_mem y ys with h1 | h1
      · rw [h1]; exact List.mem_cons_self _ _
      · exact List.mem_cons_of_mem _ h1

theorem foldl_min_le (b : ℚ) (l : List ℚ) : l.foldl min b ≤ b := by
  induction l generalizing b with
  | nil => simp
  | cons y ys ih => exact le_trans (ih (min b y)) (min_le_left b y)

theorem foldl_min_le_of_mem {x : ℚ} {l : List ℚ} (b : ℚ) (hx : x ∈ l) : l.foldl min b ≤ x := by
  induction l generalizing b with
  | nil => simp at hx
  | cons y ys ih =>
      rcases List.mem_cons.mp hx with rfl | hx
      · exact le_trans (foldl_min_le _ ys) (min_le_right b x)
      · exact ih (min b y) hx

theorem listMinD_le {x : ℚ} {l : List ℚ} (hx : x ∈ l) : listMinD l ≤ x := by
  cases l with
  | nil => simp at hx
  | cons y ys =>
      rw [listMinD]
      rcases List.mem_cons.mp hx with rfl | hx
      · exact foldl_min_le x ys
      · exact foldl_min_le_of_mem y hx

theorem foldl_min_mem (b : ℚ) (l : List ℚ) : l.foldl min b = b ∨ l.foldl min b ∈ l := by
  induction l generalizing b with
  | nil => left; rfl
  | cons y ys ih =>
      rw [List.foldl_cons]
      rcases ih (min b y) with h | h
      · rcases min_choice b y with h2 | h2
        · left; rw [h, h2]
        · right; rw [h, h2]; exact List.mem_cons_self _ _
      · right; exact List.mem_cons_of_mem _ h

theorem listMinD_mem {l : List ℚ} (h : l ≠ []) : listMinD l ∈ l := by
  cases l with
  | nil => exact absurd rfl h
  | cons y ys =>
      rw [listMinD]
      rcases foldl_min_mem y ys with h1 | h1
      · rw [h1]; exact List.mem_cons_self _ _
      · exact List.mem_cons_of_mem _ h1

theorem normVal_nonneg {M m s : ℚ} (h1 : m ≤ s) (h2 : s ≤ M) : 0 ≤ normVal M m s := by
  unfold normVal
  by_cases h : M = m
  · simp [h]
  · rw [if_neg h]
    have hMm : 0 < M - m := by
      have : m ≤ M := le_trans h1 h2
      have : m < M := lt_of_le_of_ne this (fun he => h he.symm)
      linarith
    exact div_nonneg (by linarith) (le_of_lt hMm)

theorem normVal_le_one {M m s : ℚ} (h1 : m ≤ s) (h2 : s ≤ M) : normVal M m s ≤ 1 := by
  unfold normVal
  by_cases h : M = m
  · simp [h]
  · rw [if_neg h]
    have hMm : 0 < M - m := by
      have : m ≤ M := le_trans h1 h2
      have : m < M := lt_of_le_of_ne this (fun he => h he.symm)
      linarith
    rw [div_le_one hMm]
    linarith

theorem normalize_scores_eq_map {l : List SearchResult} (h : l ≠ []) :
    normalize_scores l = l.map (fun r =>
      { r with
          similarity_score :=
            normVal (listMaxD (l.map (fun t => t.similarity_score)))
              (listMinD (l.map (fun t => t.similarity_score))) r.similarity_score }) := by
  simp [normalize_scores, h]

theorem normalize_scores_nil : normalize_scores [] = [] := rfl

theorem normalize_scores_cons (x : SearchResult) (xs : List SearchResult) :
    normalize_scores (x :: xs) = (x :: xs).map (fun r =>
      { r with
          similarity_score :=
            normVal (listMaxD ((x :: xs).map (fun t => t.similarity_score)))
              (listMinD ((x :: xs).map (fun t => t.similarity_score))) r.similarity_score }) :=
  normalize_scores_eq_map (List.cons_ne_nil x xs)

theorem rerank_results_cons (x : SearchResult) (xs : List SearchResult) (query : String) :
    rerank_results (x :: xs) query =
      sortByDesc (fun r => r.similarity_score) ((x :: xs).map (rerankAdjust query)) := by
  rw [rerank_results, if_neg (List.cons_ne_nil x xs)]

theorem mem_normalize_scores_bounds {l : List SearchResult} {r : SearchResult}
    (hr : r ∈ normalize_scores l) : 0 ≤ r.similarity_score ∧ r.similarity_score ≤ 1 := by
  have hl : l ≠ [] := by
    rintro rfl
    simp [normalize_scores] at hr
  rw [normalize_scores_eq_map hl] at hr
  obtain ⟨r0, hr0, rfl⟩ := List.mem_map.mp hr
  have hs : r0.similarity_score ∈ l.map (·.similarity_score) := List.mem_map.mpr ⟨r0, hr0, rfl⟩
  have h1 := listMinD_le hs
  have h2 := le_listMaxD hs
  exact ⟨normVal_nonneg h1 h2, normVal_le_one h1 h2⟩

theorem mem_normalize_scores_src {l : List SearchResult} {r : SearchResult}
    (hr : r ∈ normalize_scores l) :
    ∃ r0 ∈ l, r.content = r0.content ∧ r.quality_score = r0.quality_score := by
  have hl : l ≠ [] := by
    rintro rfl
    simp [normalize_scores] at hr
  rw [normalize_scores_eq_map hl] at hr
  obtain ⟨r0, hr0, rfl⟩ := List.mem_map.mp hr
  exact ⟨r0, hr0, rfl, rfl⟩

theorem normalize_scores_contents (l : List SearchResult) :
    (normalize_scores l).map (·.content) = l.map (·.content) := by
  by_cases h : l = []
  · simp [h, normalize_scores]
  · rw [normalize_scores_eq_map h, List.map_map]
    rfl

/-! ## Bounds through fusion and rerank -/

theorem addKw_bounds {m : List SearchResult} {r : SearchResult}
    (hm : ∀ e ∈ m, TrackBounds e) (hr : InBounds01 r) : ∀ e ∈ addKw m r, TrackBounds e := by
  intro e he
  unfold addKw at he
  split at he
  · obtain ⟨e0, he0, rfl⟩ := List.mem_map.mp he
    split
    · obtain ⟨h1, h2, h3, h4, h5, h6, h7, h8⟩ := hm e0 he0
      exact ⟨h1, h2, hr.1, hr.2.1, h5, h6, h7, h8⟩
    · exact hm e0 he0
  · rcases List.mem_append.mp he with h | h
    · exact hm e h
    · rcases List.mem_singleton.mp h with rfl
      exact ⟨le_refl 0, by norm_num, hr.1, hr.2.1, le_refl 0, by norm_num, hr.2.2.1, hr.2.2.2⟩

theorem addSem_bounds {m : List SearchResult} {r : SearchResult}
    (hm : ∀ e ∈ m, TrackBounds e) (hr : InBounds01 r) : ∀ e ∈ addSem m r, TrackBounds e := by
  intro e he
  unfold addSem at he
  split at he
  · obtain ⟨e0, he0, rfl⟩ := List.mem_map.mp he
    split
    · obtain ⟨h1, h2, h3, h4, h5, h6, h7, h8⟩ := hm e0 he0
      exact ⟨h1, h2, h3, h4, hr.1, hr.2.1, h7, h8⟩
    · exact hm e0 he0
  · rcases List.mem_append.mp he with h | h
    · exact hm e h
    · rcases List.mem_singleton.mp h with rfl
      exact ⟨le_refl 0, by norm_num, le_refl 0, by norm_num, hr.1, hr.2.1, hr.2.2.1, hr.2.2.2⟩

theorem foldl_addKw_bounds {kw : List SearchResult} :
    ∀ {m : List SearchResult}, (∀ e ∈ m, TrackBounds e) → (∀ r ∈ kw, InBounds01 r) →
      ∀ e ∈ kw.foldl addKw m, TrackBounds e := by
  induction kw with
  | nil => intro m hm _ e he; exact hm e he
  | cons r rs ih =>
      intro m hm hkw e he
      rw [List.foldl_cons] at he
      exact ih (addKw_bounds hm (hkw r (List.mem_cons_self _ _)))
        (fun x hx => hkw x (List.mem_cons_of_mem _ hx)) e he

theorem foldl_addSem_bounds {sem : List SearchResult} :
    ∀ {m : List SearchResult}, (∀ e ∈ m, TrackBounds e) → (∀ r ∈ sem, InBounds01 r) →
      ∀ e ∈ sem.foldl addSem m, TrackBounds e := by
  induction sem with
  | nil => intro m hm _ e he; exact hm e he
  | cons r rs ih =>
      intro m hm hsem e he
      rw [List.foldl_cons] at he
      exact ih (addSem_bounds hm (hsem r (List.mem_cons_self _ _)))
        (fun x hx => hsem x (List.mem_cons_of_mem _ hx)) e he

theorem buildContentMap_bounds {vec kw sem : List SearchResult}
    (hv : ∀ r ∈ vec, InBounds01 r) (hk : ∀ r ∈ kw, InBounds01 r) (hs : ∀ r ∈ sem, InBounds01 r) :
    ∀ e ∈ buildContentMap vec kw sem, TrackBounds e := by
  unfold buildContentMap
  apply foldl_addSem_bounds _ hs
  apply foldl_addKw_bounds _ hk
  intro e he
  obtain ⟨r, hr, rfl⟩ := List.mem_map.mp he
  obtain ⟨h1, h2, h3, h4⟩ := hv r hr
  exact ⟨h1, h2, le_refl 0, by simp [vecEntry], le_refl 0, by simp [vecEntry], h3, h4⟩

theorem combinedScore_bounds {e : SearchResult} {alpha : ℚ} (he : TrackBounds e)
    (ha1 : 0 ≤ alpha) (ha2 : alpha ≤ 1) :
    0 ≤ combinedScore alpha e ∧ combinedScore alpha e ≤ 1 := by
  obtain ⟨h1, h2, h3, h4, h5, h6, _, _⟩ := he
  unfold combinedScore
  constructor
  · have t1 : 0 ≤ alpha * e.vector_score := mul_nonneg ha1 h1
    have t2 : 0 ≤ (1 - alpha) * (6/10) * e.keyword_score :=
      mul_nonneg (mul_nonneg (by linarith) (by norm_num)) h3
    have t3 : 0 ≤ (1 - alpha) * (4/10) * e.semantic_score :=
      mul_nonneg (mul_nonneg (by linarith) (by norm_num)) h5
    linarith
  · have t1 : alpha * e.vector_score ≤ alpha * 1 := mul_le_mul_of_nonneg_left h2 ha1
    have t2 : (1 - alpha) * (6/10) * e.keyword_score ≤ (1 - alpha) * (6/10) * 1 :=
      mul_le_mul_of_nonneg_left h4 (mul_nonneg (by linarith) (by norm_num))
    have t3 : (1 - alpha) * (4/10) * e.semantic_score ≤ (1 - alpha) * (4/10) * 1 :=
      mul_le_mul_of_nonneg_left h6 (mul_nonneg (by linarith) (by norm_num))
    linarith

theorem lengthPreference_bounds (a b : ℕ) :
    9/10 ≤ lengthPreference a b ∧ lengthPreference a b ≤ 1 := by
  unfold lengthPreference
  split_ifs <;> norm_num

theorem rerankAdjust_bounds {query : String} {r : SearchResult}
    (h1 : 0 ≤ r.similarity_score) (h2 : r.similarity_score ≤ 1)
    (h3 : 0 ≤ r.quality_score) (h4 : r.quality_score ≤ 1) :
    0 ≤ (rerankAdjust query r).similarity_score ∧ (rerankAdjust query r).similarity_score ≤ 1 := by
  obtain ⟨hl1, hl2⟩ := lengthPreference_bounds query.length r.content.length
  unfold rerankAdjust
  constructor
  · simp only
    nlinarith
  · simp only
    nlinarith

/-! ## Membership chains through combine, rerank, take -/

theorem mem_combine_iff {vec kw sem : List SearchResult} {alpha : ℚ} {e : SearchResult} :
    e ∈ combine_multiple_search_results vec kw sem alpha ↔
      ∃ f ∈ buildContentMap (normalize_scores vec) (normalize_scores kw) (normalize_scores sem),
        e = { f with similarity_score := combinedScore alpha f } := by
  unfold combine_multiple_search_results
  rw [mem_sortByDesc, List.mem_map]
  constructor
  · rintro ⟨f, hf, rfl⟩; exact ⟨f, hf, rfl⟩
  · rintro ⟨f, hf, rfl⟩; exact ⟨f, hf, rfl⟩

theorem mem_rerank {l : List SearchResult} {query : String} {e : SearchResult}
    (he : e ∈ rerank_results l query) : ∃ f ∈ l, e = rerankAdjust query f := by
  unfold rerank_results at he
  split at he
  · simp_all
  · rw [mem_sortByDesc, List.mem_map] at he
    obtain ⟨f, hf, rfl⟩ := he
    exact ⟨f, hf, rfl⟩

theorem combine_output_good {vec kw sem : List SearchResult} {alpha : ℚ} {e : SearchResult}
    (hv : ∀ r ∈ vec, 0 ≤ r.quality_score ∧ r.quality_score ≤ 1)
    (hk : ∀ r ∈ kw, 0 ≤ r.quality_score ∧ r.quality_score ≤ 1)
    (hs : ∀ r ∈ sem, 0 ≤ r.quality_score ∧ r.quality_score ≤ 1)
    (ha1 : 0 ≤ alpha) (ha2 : alpha ≤ 1)
    (he : e ∈ combine_multiple_search_results vec kw sem alpha) :
    0 ≤ e.similarity_score ∧ e.similarity_score ≤ 1 ∧
      0 ≤ e.quality_score ∧ e.quality_score ≤ 1 := by
  obtain ⟨f, hf, rfl⟩ := mem_combine_iff.mp he
  have hnq : ∀ (l : List SearchResult),
      (∀ r ∈ l, 0 ≤ r.quality_score ∧ r.quality_score ≤ 1) →
      ∀ r ∈ normalize_scores l, InBounds01 r := by
    intro l hl r hr
    obtain ⟨hs1, hs2⟩ := mem_normalize_scores_bounds hr
    obtain ⟨r0, hr0, _, hq⟩ := mem_normalize_scores_src hr
    exact ⟨hs1, hs2, hq ▸ (hl r0 hr0).1, hq ▸ (hl r0 hr0).2⟩
  have hTB := buildContentMap_bounds (hnq vec hv) (hnq kw hk) (hnq sem hs) f hf
  obtain ⟨hc1, hc2⟩ := combinedScore_bounds hTB ha1 ha2
  exact ⟨hc1, hc2, hTB.2.2.2.2.2.2.1, hTB.2.2.2.2.2.2.2⟩

theorem rerankAdjust_content (query : String) (r : SearchResult) :
    (rerankAdjust query r).content = r.content := rfl

/-! ## Claim C1 -/

/-- Claim C1, counterexample to the claim as stated: on the degraded fallback
path `hybrid_search` returns the plain cached vector-search results with their
raw similarity scores unchanged, so even when every chunk's quality_score lies
in [0,1] (and alpha = 0.7 ∈ [0,1]) a raw score of 3/2 is returned as is,
violating similarity_score ∈ [0,1]. -/
theorem hybrid_fallback_score_out_of_bounds :
    (∀ r ∈ [mkRes "chunk" (3/2) (1/2)], 0 ≤ r.quality_score ∧ r.quality_score ≤ 1)
    ∧ hybrid_search "q" 5 (7/10) (.error ()) (.ok []) (.ok []) [mkRes "chunk" (3/2) (1/2)]
      = [mkRes "chunk" (3/2) (1/2)]
    ∧ ¬ ((mkRes "chunk" (3/2) (1/2)).similarity_score ≤ 1) := by
  refine ⟨by norm_num [mkRes], rfl, by norm_num [mkRes]⟩

/-- Claim C1 (amended): when the hybrid pipeline completes (no exception
escapes to the fallback), every returned SearchResult has similarity_score in
[0,1], given alpha ∈ [0,1] and quality_score ∈ [0,1] for every chunk of all
three tracks; on the degraded fallback path the output is exactly the plain
cached vector search, whose scores pass through unchanged. -/
theorem hybrid_search_scores_bounded_amended
    (query : String) (k : ℕ) (alpha : ℚ) (v : List SearchResult)
    (kwBody semBody : Except Unit (List SearchResult)) (fallback : List SearchResult)
    (ha1 : 0 ≤ alpha) (ha2 : alpha ≤ 1)
    (hq : ∀ r ∈ v ++ trackGuard kwBody ++ trackGuard semBody,
        0 ≤ r.quality_score ∧ r.quality_score ≤ 1) :
    (∀ r ∈ hybrid_search query k alpha (.ok v) kwBody semBody fallback,
        0 ≤ r.similarity_score ∧ r.similarity_score ≤ 1)
    ∧ (∀ u : Unit, hybrid_search query k alpha (.error u) kwBody semBody fallback = fallback) := by
  constructor
  · intro r hr
    have hr2 : r ∈ rerank_results
        (combine_multiple_search_results v (trackGuard kwBody) (trackGuard semBody) alpha) query :=
      List.take_subset k _ hr
    obtain ⟨f, hf, rfl⟩ := mem_rerank hr2
    have hgood := combine_output_good
      (fun x hx => hq x (List.mem_append.mpr (Or.inl (List.mem_append.mpr (Or.inl hx)))))
      (fun x hx => hq x (List.mem_append.mpr (Or.inl (List.mem_append.mpr (Or.inr hx)))))
      (fun x hx => hq x (List.mem_append.mpr (Or.inr hx)))
      ha1 ha2 hf
    exact rerankAdjust_bounds hgood.1 hgood.2.1 hgood.2.2.1 hgood.2.2.2
  · intro u
    rfl

/-- Witness for C1's amended theorem at a concrete input. -/
theorem hybrid_search_scores_bounded_amended_witness :
    (∀ r ∈ hybrid_search "q" 5 (7/10) (.ok [mkRes "a" 2 (1/2)]) (.ok []) (.ok []) [],
        0 ≤ r.similarity_score ∧ r.similarity_score ≤ 1)
    ∧ (∀ u : Unit, hybrid_search "q" 5 (7/10) (.error u) (.ok []) (.ok []) [] = []) :=
  hybrid_search_scores_bounded_amended "q" 5 (7/10) [mkRes "a" 2 (1/2)]
    (.ok []) (.ok []) [] (by norm_num) (by norm_num) (by norm_num [trackGuard, mkRes])

/-! ## Claim C3 -/

/-- Claim C3: when both the keyword and the semantic track bodies raise, their
internal except handlers turn them into empty lists and `hybrid_search` still
returns at most k results whose chunks all come from the vector search; and
any exception escaping the try block (modelled by the vector step failing)
makes `hybrid_search` return the plain cached vector search instead of
propagating. -/
theorem hybrid_search_degradation
    (query : String) (k : ℕ) (alpha : ℚ) (v fallback : List SearchResult) (u1 u2 : Unit) :
    (hybrid_search query k alpha (.ok v) (.error u1) (.error u2) fallback).length ≤ k
    ∧ (∀ r ∈ hybrid_search query k alpha (.ok v) (.error u1) (.error u2) fallback,
        r.content ∈ v.map (fun t => t.content))
    ∧ (∀ (vecStep kwBody semBody : Except Unit (List SearchResult)) (u : Unit),
        vecStep = .error u →
          hybrid_search query k alpha vecStep kwBody semBody fallback = fallback) := by
  refine ⟨?_, ?_, ?_⟩
  · show ((rerank_results _ query).take k).length ≤ k
    rw [List.length_take]
    exact min_le_left _ _
  · intro r hr
    have hr2 : r ∈ rerank_results (combine_multiple_search_results v [] [] alpha) query :=
      List.take_subset k _ hr
    obtain ⟨f, hf, rfl⟩ := mem_rerank hr2
    obtain ⟨g, hg, rfl⟩ := mem_combine_iff.mp hf
    have hg2 : g ∈ (normalize_scores v).map vecEntry := hg
    obtain ⟨n0, hn0, rfl⟩ := List.mem_map.mp hg2
    obtain ⟨r0, hr0, hc, _⟩ := mem_normalize_scores_src hn0
    rw [rerankAdjust_content]
    show n0.content ∈ _
    rw [hc]
    exact List.mem_map.mpr ⟨r0, hr0, rfl⟩
  · intro vecStep kwBody semBody u hu
    rw [hu]
    rfl

/-- Witness for C3 at a concrete input. -/
theorem hybrid_search_degradation_witness :
    (hybrid_search "q" 1 (7/10) (.ok [mkRes "a" 2 (1/2)]) (.error ()) (.error ())
        [mkRes "f" 1 1]).length ≤ 1
    ∧ (∀ r ∈ hybrid_search "q" 1 (7/10) (.ok [mkRes "a" 2 (1/2)]) (.error ()) (.error ())
        [mkRes "f" 1 1],
        r.content ∈ [mkRes "a" 2 (1/2)].map (fun t => t.content))
    ∧ (∀ (vecStep kwBody semBody : Except Unit (List SearchResult)) (u : Unit),
        vecStep = .error u →
          hybrid_search "q" 1 (7/10) vecStep kwBody semBody [mkRes "f" 1 1] = [mkRes "f" 1 1]) :=
  hybrid_search_degradation "q" 1 (7/10) [mkRes "a" 2 (1/2)] [mkRes "f" 1 1] () ()

/-! ## Claim C4 -/

theorem alphaQueryLen_not_lt20 : ("alphaoneranktestquery".length < 20) = False := by decide

theorem alphaQueryLen_not_gt50 : ("alphaoneranktestquery".length > 50) = False := by decide

/-- Claim C4, counterexample to the claim as stated: with alpha = 1.0 the
final ranking of `hybrid_search` can differ from the pure vector-search
ranking, because `_rerank_results` reweights the fused scores with
quality_score and length preference.  Here the vector ranking is a, b, c but
chunk b (quality 1) overtakes chunk a (quality 0) after rerank. -/
theorem hybrid_alpha_one_ranking_counterexample :
    (hybrid_search "alphaoneranktestquery" 3 1
        (.ok [mkRes "a" 10 0, mkRes "b" 9 1, mkRes "c" 0 0])
        (.ok []) (.ok []) []).map (fun r => r.content)
      ≠ ([mkRes "a" 10 0, mkRes "b" 9 1, mkRes "c" 0 0]).map (fun r => r.content) := by
  have hev : (hybrid_search "alphaoneranktestquery" 3 1
      (.ok [mkRes "a" 10 0, mkRes "b" 9 1, mkRes "c" 0 0])
      (.ok []) (.ok []) []).map (fun r => r.content) = ["b", "a", "c"] := by
    norm_num [hybrid_search, trackGuard, combine_multiple_search_results, normalize_scores_cons,
      normalize_scores_nil, listMaxD, listMinD, normVal, buildContentMap, vecEntry, addKw, addSem,
      combinedScore, sortByDesc, insertDesc, rerank_results_cons, rerankAdjust, lengthPreference,
      alphaQueryLen_not_lt20, alphaQueryLen_not_gt50, Function.comp, mkRes]
  rw [hev]
  simp [mkRes]

/-- Claim C4 (amended): with alpha = 1.0 the fusion stage itself gives the
keyword and semantic tracks weight 0 — every fused score equals the entry's
(normalized) vector score — but the subsequent rerank step may still reorder,
so the final hybrid ranking need not equal the pure vector ranking. -/
theorem fusion_alpha_one_vector_only (vec kw sem : List SearchResult) :
    ∀ e ∈ combine_multiple_search_results vec kw sem 1,
      e.similarity_score = e.vector_score := by
  intro e he
  obtain ⟨f, hf, rfl⟩ := mem_combine_iff.mp he
  show combinedScore 1 f = f.vector_score
  unfold combinedScore
  ring

/-- Witness for C4's amended theorem at a concrete input. -/
theorem fusion_alpha_one_vector_only_witness :
    ({ mkRes "a" 1 1 with vector_score := 1 }).similarity_score
      = ({ mkRes "a" 1 1 with vector_score := 1 }).vector_score :=
  fusion_alpha_one_vector_only [mkRes "a" 5 1] [] [] { mkRes "a" 1 1 with vector_score := 1 }
    (by norm_num [combine_multiple_search_results, normalize_scores_cons, listMaxD, listMinD,
      normVal, buildContentMap, vecEntry, addKw, addSem, normalize_scores_nil, combinedScore,
      sortByDesc, insertDesc, mem_sortByDesc, mkRes])

/-! ## Dict lemmas for the cache -/

theorem dictContains_iff {K V : Type} [DecidableEq K] {l : List (K × V)} {k : K} :
    dictContains l k = true ↔ k ∈ l.map Prod.fst := by
  simp only [dictContains, List.any_eq_true, List.mem_map, decide_eq_true_eq]

theorem dictGet_eq_none {K V : Type} [DecidableEq K] {l : List (K × V)} {k : K}
    (h : ∀ p ∈ l, p.1 ≠ k) : dictGet l k = none := by
  unfold dictGet
  rw [List.find?_eq_none.mpr (fun p hp => by simpa using h p hp)]
  rfl

theorem dictGet_of_mem_nodup {K V : Type} [DecidableEq K] {l : List (K × V)} {k : K} {v : V}
    (hnd : (l.map Prod.fst).Nodup) (hm : (k, v) ∈ l) : dictGet l k = some v := by
  induction l with
  | nil => simp at hm
  | cons p t ih =>
      rcases List.mem_cons.mp hm with rfl | hm
      · unfold dictGet
        rw [List.find?_cons_of_pos _ (by simp)]
        rfl
      · by_cases hk : p.1 = k
        · exfalso
          have : k ∈ t.map Prod.fst := List.mem_map.mpr ⟨(k, v), hm, rfl⟩
          rw [List.map_cons, List.nodup_cons] at hnd
          exact hnd.1 (hk ▸ this)
        · unfold dictGet
          rw [List.find?_cons_of_neg _ (by simpa using hk)]
          rw [List.map_cons, List.nodup_cons] at hnd
          exact ih hnd.2 hm

theorem dictGet_cons_of_pos {K V : Type} [DecidableEq K] {q : K × V} {t : List (K × V)} {k : K}
    (h : q.1 = k) : dictGet (q :: t) k = some q.2 := by
  unfold dictGet
  rw [List.find?_cons_of_pos _ (by simpa using h)]
  rfl

theorem dictGet_cons_of_neg {K V : Type} [DecidableEq K] {q : K × V} {t : List (K × V)} {k : K}
    (h : ¬ q.1 = k) : dictGet (q :: t) k = dictGet t k := by
  unfold dictGet
  rw [List.find?_cons_of_neg _ (by simpa using h)]

theorem dictGet_map_update {K V : Type} [DecidableEq K] {l : List (K × V)} {k : K} (v : V)
    (h : k ∈ l.map Prod.fst) :
    dictGet (l.map (fun p => if p.1 = k then (k, v) else p)) k = some v := by
  induction l with
  | nil => simp at h
  | cons q t ih =>
      rw [List.map_cons]
      by_cases hq : q.1 = k
      · rw [if_pos hq, dictGet_cons_of_pos rfl]
      · rw [if_neg hq, dictGet_cons_of_neg hq]
        apply ih
        rcases List.mem_map.mp h with ⟨p, hp, hpk⟩
        rcases List.mem_cons.mp hp with rfl | hp
        · exact absurd hpk hq
        · exact List.mem_map.mpr ⟨p, hp, hpk⟩

theorem dictGet_append_fresh {K V : Type} [DecidableEq K] {l : List (K × V)} {k : K} (v : V)
    (h : k ∉ l.map Prod.fst) : dictGet (l ++ [(k, v)]) k = some v := by
  induction l with
  | nil => exact dictGet_cons_of_pos rfl
  | cons q t ih =>
      rw [List.cons_append, dictGet_cons_of_neg]
      · exact ih (fun hm => h (List.mem_map.mpr (by
          obtain ⟨p, hp, hpk⟩ := List.mem_map.mp hm
          exact ⟨p, List.mem_cons_of_mem _ hp, hpk⟩)))
      · intro he
        exact h (List.mem_map.mpr ⟨q, List.mem_cons_self _ _, he⟩)

theorem dictGet_dictSet_self {K V : Type} [DecidableEq K] (l : List (K × V)) (k : K) (v : V) :
    dictGet (dictSet l k v) k = some v := by
  unfold dictSet
  by_cases h : dictContains l k = true
  · rw [if_pos h]
    exact dictGet_map_update v (dictContains_iff.mp h)
  · rw [if_neg h]
    exact dictGet_append_fresh v (fun hm => h (dictContains_iff.mpr hm))

theorem cacheGet_cacheSet_self {K V : Type} [DecidableEq K] (s : CacheState K V) (now : ℚ)
    (k : K) (v : V) (e : ℚ) : cacheGet (cacheSet s now k v e) k = some v :=
  dictGet_dictSet_self _ k v

/-! ## Claim C5 -/

/-- Claim C5, evaluated at the failing input: `CacheManager.get` is a plain
dict read that never consults the TTL, so after `set(k, v, expire=1)` at time
0 a read at time 100 still returns v even though the code's own `_is_expired`
predicate says the entry is expired (the `expire` argument of `set` is ignored
and `_is_expired` is called from nowhere).  The first conjunct is the claim's
immediate-read part, which does hold. -/
theorem cache_get_ignores_expiry :
    cacheGet (cacheSet ({ memory_cache := [], cache_timestamps := [] } : CacheState ℕ ℕ)
        0 7 42 1) 7 = some 42
    ∧ is_expired (cacheSet ({ memory_cache := [], cache_timestamps := [] } : CacheState ℕ ℕ)
        0 7 42 1) 100 7 1 = true := by
  constructor
  · exact cacheGet_cacheSet_self _ 0 7 42 1
  · norm_num [is_expired, cacheSet, dictGet, dictSet, dictContains, dictDelete,
      memory_cache_maxsize]

/-! ## Claim C6 -/

/-- Claim C6: for a cache at its fixed capacity of 1000 entries with pairwise
distinct keys, a `set` of a fresh key deletes exactly the first-inserted
(oldest) key: reading the old head key now misses, every other previously
stored pair is still readable unchanged, the fresh key reads back its value,
and the size stays at capacity.  (`get` takes the state and returns only a
value, never a new state, so intervening reads cannot change which key is
evicted next: eviction depends on insertion order alone.) -/
theorem cache_eviction_insertion_order {K V : Type} [DecidableEq K]
    (s : CacheState K V) (now : ℚ) (k0 : K) (v0 : V) (rest : List (K × V))
    (k' : K) (v' : V) (e : ℚ)
    (hmc : s.memory_cache = (k0, v0) :: rest)
    (hlen : s.memory_cache.length = memory_cache_maxsize)
    (hnodup : (s.memory_cache.map Prod.fst).Nodup)
    (hfresh : k' ∉ s.memory_cache.map Prod.fst) :
    cacheGet (cacheSet s now k' v' e) k0 = none
    ∧ (∀ p ∈ rest, cacheGet (cacheSet s now k' v' e) p.1 = some p.2)
    ∧ cacheGet (cacheSet s now k' v' e) k' = some v'
    ∧ (cacheSet s now k' v' e).memory_cache.length = memory_cache_maxsize := by
  rw [hmc] at hlen hnodup hfresh
  rw [List.map_cons, List.nodup_cons] at hnodup
  have hk0rest : k0 ∉ rest.map Prod.fst := hnodup.1
  have hfrest : k' ∉ rest.map Prod.fst := fun hm => hfresh (List.mem_cons_of_mem _ hm)
  have hfk0 : k' ≠ k0 := fun he => hfresh (he ▸ List.mem_cons_self _ _)
  have hcontains : dictContains rest k' = false := by
    rcases Bool.eq_false_or_eq_true (dictContains rest k') with h | h
    · exact absurd (dictContains_iff.mp h) hfrest
    · exact h
  have hmem : (cacheSet s now k' v' e).memory_cache = rest ++ [(k', v')] := by
    unfold cacheSet
    rw [if_pos (by rw [hmc, hlen]), hmc]
    simp only [dictSet, hcontains, Bool.false_eq_true, if_false]
  refine ⟨?_, ?_, ?_, ?_⟩
  · unfold cacheGet
    rw [hmem]
    apply dictGet_eq_none
    intro p hp
    rcases List.mem_append.mp hp with hp | hp
    · intro he
      exact hk0rest (List.mem_map.mpr ⟨p, hp, he⟩)
    · rcases List.mem_singleton.mp hp with rfl
      exact hfk0
  · intro p hp
    unfold cacheGet
    rw [hmem]
    apply dictGet_of_mem_nodup
    · rw [List.map_append]
      refine List.Nodup.append hnodup.2 (List.nodup_singleton k') ?_
      intro a ha hb
      rcases List.mem_singleton.mp hb with rfl
      exact hfrest ha
    · exact List.mem_append.mpr (Or.inl hp)
  · unfold cacheGet
    rw [hmem]
    exact dictGet_append_fresh v' hfrest
  · rw [hmem, List.length_append]
    have : rest.length + 1 = memory_cache_maxsize := by
      simpa [List.length_cons] using hlen
    simpa using this

/-- Witness for C6: a concrete cache holding exactly 1000 distinct keys
0..999; inserting key 1000 evicts key 0 only. -/
theorem cache_eviction_insertion_order_witness :
    cacheGet (cacheSet bigCache 5 1000 1000 3600) 0 = none
    ∧ (∀ p ∈ (List.range 999).map (fun i => (i + 1, i + 1)),
        cacheGet (cacheSet bigCache 5 1000 1000 3600) p.1 = some p.2)
    ∧ cacheGet (cacheSet bigCache 5 1000 1000 3600) 1000 = some 1000
    ∧ (cacheSet bigCache 5 1000 1000 3600).memory_cache.length = memory_cache_maxsize :=
  cache_eviction_insertion_order bigCache 5 0 0 ((List.range 999).map (fun i => (i + 1, i + 1)))
    1000 1000 3600
    (by simp only [bigCache]
        rw [show (1000 : ℕ) = 999 + 1 from rfl, List.range_succ_eq_map, List.map_cons,
          List.map_map]
        refine List.cons_eq_cons.mpr ⟨rfl, ?_⟩
        exact List.map_congr_left (fun i _ => rfl))
    (by simp [bigCache, memory_cache_maxsize])
    (by simp [bigCache, List.map_map, Function.comp_def, List.nodup_range])
    (by simp [bigCache, List.map_map, Function.comp_def, List.mem_range])

/-! ## Claim C10 -/

/-- Claim C10: if the underlying vector search returns [], then
`search_similar_chunks_with_cache` stores [] in the cache but still reports a
miss (third component true means the underlying search was invoked); any
subsequent call finding the cached [] invokes the search again (Python
truthiness treats [] as false); and whenever a call is served from the cache,
the served list is the cached value and is non-empty. -/
theorem empty_result_cache_miss {K : Type} [DecidableEq K]
    (s : CacheState K (List SearchResult)) (now : ℚ) (key : K) (r : List SearchResult) :
    (cacheGet s key = none ∨ cacheGet s key = some [] →
      search_with_cache s now key [] = ([], cacheSet s now key [] 3600, true)
      ∧ cacheGet (cacheSet s now key [] 3600) key = some [])
    ∧ (cacheGet s key = some [] → (search_with_cache s now key r).2.2 = true)
    ∧ ((search_with_cache s now key r).2.2 = false →
        ∃ x xs, cacheGet s key = some (x :: xs) ∧ (search_with_cache s now key r).1 = x :: xs) := by
  rcases hc : cacheGet s key with _ | v
  · refine ⟨fun _ => ⟨?_, cacheGet_cacheSet_self s now key [] 3600⟩, fun h => ?_, fun h => ?_⟩
    · unfold search_with_cache
      rw [hc]
    · simp at h
    · exfalso
      unfold search_with_cache at h
      rw [hc] at h
      simp at h
  · cases v with
    | nil =>
        refine ⟨fun _ => ⟨?_, cacheGet_cacheSet_self s now key [] 3600⟩, fun _ => ?_, fun h => ?_⟩
        · unfold search_with_cache
          rw [hc]
        · unfold search_with_cache
          rw [hc]
        · exfalso
          unfold search_with_cache at h
          rw [hc] at h
          simp at h
    | cons x xs =>
        refine ⟨fun h => ?_, fun h => ?_, fun _ => ?_⟩
        · rcases h with h | h <;> simp at h
        · simp at h
        · refine ⟨x, xs, rfl, ?_⟩
          unfold search_with_cache
          rw [hc]

/-- Witness for C10: the empty cache caches an empty search result, and the
next identical call still invokes the underlying search. -/
theorem empty_result_cache_miss_witness :
    (search_with_cache ({ memory_cache := [], cache_timestamps := [] } : CacheState ℕ (List SearchResult)) 0 5 []
        = ([], cacheSet ({ memory_cache := [], cache_timestamps := [] } : CacheState ℕ (List SearchResult)) 0 5 [] 3600, true)
      ∧ cacheGet (cacheSet ({ memory_cache := [], cache_timestamps := [] } : CacheState ℕ (List SearchResult))
          0 5 [] 3600) 5 = some [])
    ∧ (search_with_cache (cacheSet ({ memory_cache := [], cache_timestamps := [] } : CacheState ℕ (List SearchResult))
        0 5 [] 3600) 1 5 [mkRes "a" 1 1]).2.2 = true :=
  ⟨(empty_result_cache_miss _ 0 5 []).1 (Or.inl rfl),
   (empty_result_cache_miss _ 1 5 [mkRes "a" 1 1]).2.1
     (cacheGet_cacheSet_self ({ memory_cache := [], cache_timestamps := [] } : CacheState ℕ (List SearchResult))
       0 5 [] 3600)⟩

theorem normalize_scores_heap_cons (h : Heap) (a : ℕ) (rest : List ℕ) :
    normalize_scores_heap h (a :: rest) =
      (a :: rest).foldl
        (fun hh b =>
          hUpdate hh b
            { hh b with
                similarity_score :=
                  normVal (listMaxD ((a :: rest).map (fun x => (h x).similarity_score)))
                    (listMinD ((a :: rest).map (fun x => (h x).similarity_score)))
                    (hh b).similarity_score })
        h := by
  rw [normalize_scores_heap, if_neg (List.cons_ne_nil a rest)]

/-! ## Claim C7 -/

/-- Claim C7, evaluated at the failing input: a `hybrid_search` cache hit
passes the cached list of result dicts to `_combine_multiple_search_results`,
whose `vector_results.copy()` copies only the list while `normalize_scores`
assigns `r['similarity_score'] = ...` through the shared references — so the
dicts inside the cached value are mutated in place (here scores 2 and 6
become 0 and 1), contradicting the no-mutation claim. -/
theorem cache_hit_normalization_mutates_cached_entry :
    ((fun a => if a = 0 then mkRes "chunk-a" 2 (1/2) else mkRes "chunk-b" 6 (1/2) : Heap) 0
      ).similarity_score = 2
    ∧ ((hybridCacheHitNormalizeStep
        (fun a => if a = 0 then mkRes "chunk-a" 2 (1/2) else mkRes "chunk-b" 6 (1/2)) [0, 1]) 0
      ).similarity_score = 0
    ∧ ((hybridCacheHitNormalizeStep
        (fun a => if a = 0 then mkRes "chunk-a" 2 (1/2) else mkRes "chunk-b" 6 (1/2)) [0, 1]) 1
      ).similarity_score = 1
    ∧ (hybridCacheHitNormalizeStep
        (fun a => if a = 0 then mkRes "chunk-a" 2 (1/2) else mkRes "chunk-b" 6 (1/2)) [0, 1]) 0
      ≠ (fun a => if a = 0 then mkRes "chunk-a" 2 (1/2) else mkRes "chunk-b" 6 (1/2) : Heap) 0 := by
  refine ⟨by norm_num [mkRes], ?_, ?_, ?_⟩ <;>
    norm_num [hybridCacheHitNormalizeStep, normalize_scores_heap_cons, pyListCopy, hUpdate,
      listMaxD, listMinD, normVal, mkRes, SearchResult.mk.injEq]

/-! ## Claim C2 -/

/-- Claim C2: the lexical scorer returns 0 when the filtered query token set or
the filtered token intersection is empty, and otherwise
min(jaccard + exact_match_bonus + coverage_bonus, 1) with the bonuses as in
the source; in all cases the result lies in [0,1]. -/
theorem calculate_keyword_score_spec (cut : String → List String) (content query : String) :
    (filteredTokens cut query = ∅ ∨ filteredTokens cut query ∩ filteredTokens cut content = ∅ →
      calculate_keyword_score cut content query = 0)
    ∧ (filteredTokens cut query ≠ ∅ →
       filteredTokens cut query ∩ filteredTokens cut content ≠ ∅ →
        calculate_keyword_score cut content query =
          min (((filteredTokens cut query ∩ filteredTokens cut content).card : ℚ)
              / ((filteredTokens cut query ∪ filteredTokens cut content).card : ℚ)
            + (((filteredTokens cut query).filter (fun w => pySubstr w content.toLower)).card : ℚ)
              / ((filteredTokens cut query).card : ℚ) * (1/2)
            + ((filteredTokens cut query ∩ filteredTokens cut content).card : ℚ)
              / ((filteredTokens cut query).card : ℚ) * (3/10)) 1)
    ∧ 0 ≤ calculate_keyword_score cut content query
    ∧ calculate_keyword_score cut content query ≤ 1 := by
  by_cases h1 : filteredTokens cut query = ∅
  · have hz : calculate_keyword_score cut content query = 0 := by
      simp only [calculate_keyword_score]
      rw [if_pos h1]
    refine ⟨fun _ => hz, fun h => absurd h1 h, ?_, ?_⟩ <;> rw [hz] <;> norm_num
  · by_cases h2 : filteredTokens cut query ∩ filteredTokens cut content = ∅
    · have hz : calculate_keyword_score cut content query = 0 := by
        simp only [calculate_keyword_score]
        rw [if_neg h1, if_pos h2]
      refine ⟨fun _ => hz, fun _ h => absurd h2 h, ?_, ?_⟩ <;> rw [hz] <;> norm_num
    · have hf : calculate_keyword_score cut content query =
          min (((filteredTokens cut query ∩ filteredTokens cut content).card : ℚ)
              / ((filteredTokens cut query ∪ filteredTokens cut content).card : ℚ)
            + (((filteredTokens cut query).filter (fun w => pySubstr w content.toLower)).card : ℚ)
              / ((filteredTokens cut query).card : ℚ) * (1/2)
            + ((filteredTokens cut query ∩ filteredTokens cut content).card : ℚ)
              / ((filteredTokens cut query).card : ℚ) * (3/10)) 1 := by
        simp only [calculate_keyword_score]
        rw [if_neg h1, if_neg h2]
      refine ⟨fun h => ?_, fun _ _ => hf, ?_, ?_⟩
      · rcases h with h | h
        · exact absurd h h1
        · exact absurd h h2
      · rw [hf]
        apply le_min _ (by norm_num)
        positivity
      · rw [hf]
        exact min_le_right _ 1

/-- Witness for C2: with a constant tokenizer producing one four-character
token present in both strings, the non-degenerate branch applies. -/
theorem calculate_keyword_score_spec_witness :
    (filteredTokens (fun _ => ["机器学习"]) "机器学习" ≠ ∅)
    ∧ (filteredTokens (fun _ => ["机器学习"]) "机器学习"
        ∩ filteredTokens (fun _ => ["机器学习"]) "机器学习" ≠ ∅)
    ∧ calculate_keyword_score (fun _ => ["机器学习"]) "机器学习" "机器学习" =
        min (((filteredTokens (fun _ => ["机器学习"]) "机器学习"
              ∩ filteredTokens (fun _ => ["机器学习"]) "机器学习").card : ℚ)
            / ((filteredTokens (fun _ => ["机器学习"]) "机器学习"
              ∪ filteredTokens (fun _ => ["机器学习"]) "机器学习").card : ℚ)
          + (((filteredTokens (fun _ => ["机器学习"]) "机器学习").filter
              (fun w => pySubstr w ("机器学习").toLower)).card : ℚ)
            / ((filteredTokens (fun _ => ["机器学习"]) "机器学习").card : ℚ) * (1/2)
          + ((filteredTokens (fun _ => ["机器学习"]) "机器学习"
              ∩ filteredTokens (fun _ => ["机器学习"]) "机器学习").card : ℚ)
            / ((filteredTokens (fun _ => ["机器学习"]) "机器学习").card : ℚ) * (3/10)) 1
    ∧ 0 ≤ calculate_keyword_score (fun _ => ["机器学习"]) "机器学习" "机器学习"
    ∧ calculate_keyword_score (fun _ => ["机器学习"]) "机器学习" "机器学习" ≤ 1 :=
  ⟨by decide, by decide,
   (calculate_keyword_score_spec (fun _ => ["机器学习"]) "机器学习" "机器学习").2.1
     (by decide) (by decide),
   (calculate_keyword_score_spec (fun _ => ["机器学习"]) "机器学习" "机器学习").2.2.1,
   (calculate_keyword_score_spec (fun _ => ["机器学习"]) "机器学习" "机器学习").2.2.2⟩

/-! ## Claim C9 -/

theorem completeness_short {cut : String → List String} {answer question : String}
    (h : answer.trim.length < 20) :
    evaluate_answer_completeness cut answer question = 2/10 := by
  simp only [evaluate_answer_completeness]
  rw [if_pos h]

theorem completeness_long {cut : String → List String} {answer question : String}
    (h : ¬ answer.trim.length < 20) :
    evaluate_answer_completeness cut answer question
      = 1/2 + (if hasSentencePunct answer then (2/10 : ℚ) else 0)
          + (if (cut question.toLower).toFinset \ stop_words_small.toFinset ≠ ∅
                ∧ (cut answer.toLower).toFinset \ stop_words_small.toFinset ≠ ∅
             then (((cut question.toLower).toFinset \ stop_words_small.toFinset
                    ∩ ((cut answer.toLower).toFinset \ stop_words_small.toFinset)).card : ℚ)
                  / (((cut question.toLower).toFinset \ stop_words_small.toFinset).card : ℚ)
                    * (3/10)
             else 0) := by
  simp only [evaluate_answer_completeness]
  rw [if_neg h]
  set Qw := (cut question.toLower).toFinset \ stop_words_small.toFinset with hQw
  set Aw := (cut answer.toLower).toFinset \ stop_words_small.toFinset with hAw
  have hratio : Qw ≠ ∅ → (((Qw ∩ Aw).card : ℚ) / (Qw.card : ℚ)) ≤ 1 := by
    intro hq
    have hcard : 0 < Qw.card := Finset.card_pos.mpr (Finset.nonempty_iff_ne_empty.mpr hq)
    rw [div_le_one (by exact_mod_cast hcard)]
    exact_mod_cast Finset.card_le_card (Finset.inter_subset_left)
  have hratio0 : (0 : ℚ) ≤ ((Qw ∩ Aw).card : ℚ) / (Qw.card : ℚ) := by positivity
  by_cases hp : hasSentencePunct answer
  · by_cases hov : Qw ≠ ∅ ∧ Aw ≠ ∅
    · rw [if_pos hp, if_pos hov, if_pos hp, if_pos hov]
      rw [min_eq_left (by
        have := hratio hov.1
        nlinarith)]
      try ring
    · rw [if_pos hp, if_neg hov, if_pos hp, if_neg hov]
      rw [min_eq_left (by norm_num)]
      try ring
  · by_cases hov : Qw ≠ ∅ ∧ Aw ≠ ∅
    · rw [if_neg hp, if_pos hov, if_neg hp, if_pos hov]
      rw [min_eq_left (by
        have := hratio hov.1
        nlinarith)]
      try ring
    · rw [if_neg hp, if_neg hov, if_neg hp, if_neg hov]
      rw [min_eq_left (by norm_num)]
      try ring

theorem completeness_bounds (cut : String → List String) (answer question : String) :
    2/10 ≤ evaluate_answer_completeness cut answer question
    ∧ evaluate_answer_completeness cut answer question ≤ 1 := by
  by_cases h : answer.trim.length < 20
  · rw [completeness_short h]
    norm_num
  · rw [completeness_long h]
    set Qw := (cut question.toLower).toFinset \ stop_words_small.toFinset with hQw
    set Aw := (cut answer.toLower).toFinset \ stop_words_small.toFinset with hAw
    have hratio : Qw ≠ ∅ → (((Qw ∩ Aw).card : ℚ) / (Qw.card : ℚ)) ≤ 1 := by
      intro hq
      have hcard : 0 < Qw.card := Finset.card_pos.mpr (Finset.nonempty_iff_ne_empty.mpr hq)
      rw [div_le_one (by exact_mod_cast hcard)]
      exact_mod_cast Finset.card_le_card (Finset.inter_subset_left)
    have hratio0 : (0 : ℚ) ≤ ((Qw ∩ Aw).card : ℚ) / (Qw.card : ℚ) := by positivity
    by_cases hp : hasSentencePunct answer
    · by_cases hov : Qw ≠ ∅ ∧ Aw ≠ ∅
      · rw [if_pos hp, if_pos hov]
        have := hratio hov.1
        constructor <;> nlinarith
      · rw [if_pos hp, if_neg hov]
        norm_num
    · by_cases hov : Qw ≠ ∅ ∧ Aw ≠ ∅
      · rw [if_neg hp, if_pos hov]
        have := hratio hov.1
        constructor <;> nlinarith
      · rw [if_neg hp, if_neg hov]
        norm_num

/-- Claim C9: the enhanced confidence for a non-empty result list equals
0.3 × max similarity + 0.3 × mean(similarity × quality) + 0.2 × min(n/3, 1)
+ 0.2 × answer_completeness, capped at 1 and rounded (half-to-even) to 3
decimals; and answer_completeness lies in [0.2, 1], is 0.2 for answers whose
stripped length is under 20, and otherwise is 0.5 plus 0.2 for terminal
punctuation plus 0.3 × (filtered question/answer token overlap over the
question tokens) when both filtered sets are non-empty. -/
theorem enhanced_confidence_spec (cut : String → List String) (results : List SearchResult)
    (question answer : String) (hne : results ≠ []) :
    calculate_enhanced_confidence cut results question answer
      = pyRound3 (min (
          (3/10) * listMaxD (results.map (fun r => r.similarity_score))
          + (3/10) * ((results.map (fun r => r.similarity_score * r.quality_score)).sum
              / (results.length : ℚ))
          + (2/10) * min ((results.length : ℚ) / 3) 1
          + (2/10) * evaluate_answer_completeness cut answer question) 1)
    ∧ 2/10 ≤ evaluate_answer_completeness cut answer question
    ∧ evaluate_answer_completeness cut answer question ≤ 1
    ∧ (answer.trim.length < 20 → evaluate_answer_completeness cut answer question = 2/10)
    ∧ (¬ answer.trim.length < 20 →
        evaluate_answer_completeness cut answer question
          = 1/2 + (if hasSentencePunct answer then (2/10 : ℚ) else 0)
              + (if (cut question.toLower).toFinset \ stop_words_small.toFinset ≠ ∅
                    ∧ (cut answer.toLower).toFinset \ stop_words_small.toFinset ≠ ∅
                 then (((cut question.toLower).toFinset \ stop_words_small.toFinset
                        ∩ ((cut answer.toLower).toFinset \ stop_words_small.toFinset)).card : ℚ)
                      / (((cut question.toLower).toFinset \ stop_words_small.toFinset).card : ℚ)
                        * (3/10)
                 else 0)) := by
  refine ⟨?_, (completeness_bounds cut answer question).1,
    (completeness_bounds cut answer question).2,
    fun h => completeness_short h, fun h => completeness_long h⟩
  simp only [calculate_enhanced_confidence]
  rw [if_neg hne]
  congr 1
  congr 1
  ring

/-- Witness for C9 at a concrete input. -/
theorem enhanced_confidence_spec_witness :
    calculate_enhanced_confidence (fun _ => ["t"]) [mkRes "c" 1 1] "tq" "ta"
      = pyRound3 (min (
          (3/10) * listMaxD ([mkRes "c" 1 1].map (fun r => r.similarity_score))
          + (3/10) * (([mkRes "c" 1 1].map (fun r => r.similarity_score * r.quality_score)).sum
              / (([mkRes "c" 1 1] : List SearchResult).length : ℚ))
          + (2/10) * min ((([mkRes "c" 1 1] : List SearchResult).length : ℚ) / 3) 1
          + (2/10) * evaluate_answer_completeness (fun _ => ["t"]) "ta" "tq") 1)
    ∧ 2/10 ≤ evaluate_answer_completeness (fun _ => ["t"]) "ta" "tq"
    ∧ evaluate_answer_completeness (fun _ => ["t"]) "ta" "tq" ≤ 1
    ∧ ("ta".trim.length < 20 → evaluate_answer_completeness (fun _ => ["t"]) "ta" "tq" = 2/10)
    ∧ (¬ "ta".trim.length < 20 →
        evaluate_answer_completeness (fun _ => ["t"]) "ta" "tq"
          = 1/2 + (if hasSentencePunct "ta" then (2/10 : ℚ) else 0)
              + (if ((fun _ : String => ["t"]) ("tq").toLower).toFinset \ stop_words_small.toFinset ≠ ∅
                    ∧ ((fun _ : String => ["t"]) ("ta").toLower).toFinset \ stop_words_small.toFinset ≠ ∅
                 then ((((fun _ : String => ["t"]) ("tq").toLower).toFinset \ stop_words_small.toFinset
                        ∩ (((fun _ : String => ["t"]) ("ta").toLower).toFinset \ stop_words_small.toFinset)).card : ℚ)
                      / ((((fun _ : String => ["t"]) ("tq").toLower).toFinset \ stop_words_small.toFinset).card : ℚ)
                        * (3/10)
                 else 0)) :=
  enhanced_confidence_spec (fun _ => ["t"]) [mkRes "c" 1 1] "tq" "ta" (by simp)

/-! ## Claim C8: monotonicity of min-max normalization and fusion -/

theorem normVal_of_ne {M m s : ℚ} (h : M ≠ m) : normVal M m s = (s - m) / (M - m) := if_neg h

theorem normVal_of_eq {M m s : ℚ} (h : M = m) : normVal M m s = 1 := if_pos h

/-- Raising one score of a list (all others held constant) cannot lower that
score's min-max-normalized value. -/
theorem normVal_mono (A B : List ℚ) (s s' : ℚ) (hss : s ≤ s') :
    normVal (listMaxD (A ++ s :: B)) (listMinD (A ++ s :: B)) s
      ≤ normVal (listMaxD (A ++ s' :: B)) (listMinD (A ++ s' :: B)) s' := by
  have hsL : s ∈ A ++ s :: B := by simp
  have hs'L' : s' ∈ A ++ s' :: B := by simp
  have hms : listMinD (A ++ s :: B) ≤ s := listMinD_le hsL
  have hsM : s ≤ listMaxD (A ++ s :: B) := le_listMaxD hsL
  have hm's' : listMinD (A ++ s' :: B) ≤ s' := listMinD_le hs'L'
  have hs'M' : s' ≤ listMaxD (A ++ s' :: B) := le_listMaxD hs'L'
  set M := listMaxD (A ++ s :: B)
  set m := listMinD (A ++ s :: B)
  set M' := listMaxD (A ++ s' :: B)
  set m' := listMinD (A ++ s' :: B)
  by_cases h1 : M' = m'
  · rw [normVal_of_eq h1]
    exact normVal_le_one hms hsM
  · have hm'M' : m' < M' :=
      lt_of_le_of_ne (le_trans hm's' hs'M') (fun he => h1 he.symm)
    by_cases h2 : M' ≤ s'
    · have hs'eq : s' = M' := le_antisymm hs'M' h2
      rw [normVal_of_ne h1, hs'eq, div_self (by linarith)]
      exact normVal_le_one hms hsM
    · push_neg at h2
      have hM'mem : M' ∈ A ++ s' :: B := listMaxD_mem (by simp)
      have hM'AB : M' ∈ A ∨ M' ∈ B := by
        rcases List.mem_append.mp hM'mem with h | h
        · exact Or.inl h
        · rcases List.mem_cons.mp h with h | h
          · exact absurd h (ne_of_gt h2)
          · exact Or.inr h
      have hM'L : M' ∈ A ++ s :: B := by
        rcases hM'AB with h | h
        · exact List.mem_append.mpr (Or.inl h)
        · exact List.mem_append.mpr (Or.inr (List.mem_cons_of_mem _ h))
      have hM'leM : M' ≤ M := le_listMaxD hM'L
      have hMleM' : M ≤ M' := by
        have hMmem : M ∈ A ++ s :: B := listMaxD_mem (by simp)
        rcases List.mem_append.mp hMmem with h | h
        · exact le_listMaxD (List.mem_append.mpr (Or.inl h))
        · rcases List.mem_cons.mp h with h | h
          · rw [h]; exact le_trans hss hs'M'
          · exact le_listMaxD (List.mem_append.mpr (Or.inr (List.mem_cons_of_mem _ h)))
      have hMM' : M = M' := le_antisymm hMleM' hM'leM
      have hmM : m < M := by
        calc m ≤ s := hms
        _ ≤ s' := hss
        _ < M' := h2
        _ = M := hMM'.symm
      by_cases h3 : s ≤ m
      · have hseq : s = m := le_antisymm h3 hms
        rw [normVal_of_ne (ne_of_gt hmM), hseq, sub_self, zero_div]
        rw [normVal_of_ne h1]
        exact div_nonneg (by linarith) (by linarith)
      · push_neg at h3
        have hmmem : m ∈ A ++ s :: B := listMinD_mem (by simp)
        have hmAB : m ∈ A ∨ m ∈ B := by
          rcases List.mem_append.mp hmmem with h | h
          · exact Or.inl h
          · rcases List.mem_cons.mp h with h | h
            · exact absurd h.symm (ne_of_gt h3)
            · exact Or.inr h
        have hm'lem : m' ≤ m := by
          rcases hmAB with h | h
          · exact listMinD_le (List.mem_append.mpr (Or.inl h))
          · exact listMinD_le (List.mem_append.mpr (Or.inr (List.mem_cons_of_mem _ h)))
        have hmlem' : m ≤ m' := by
          have hm'mem : m' ∈ A ++ s' :: B := listMinD_mem (by simp)
          rcases List.mem_append.mp hm'mem with h | h
          · exact listMinD_le (List.mem_append.mpr (Or.inl h))
          · rcases List.mem_cons.mp h with h | h
            · rw [h]; exact le_trans hms hss
            · exact listMinD_le (List.mem_append.mpr (Or.inr (List.mem_cons_of_mem _ h)))
        have hmm' : m = m' := le_antisymm hmlem' hm'lem
        rw [normVal_of_ne (ne_of_gt hmM), normVal_of_ne h1, ← hMM', ← hmm']
        rw [div_le_div_iff_of_pos_right (by linarith)]
        linarith

theorem frel_refl {c : String} (a : SearchResult) : FusionRel c a a :=
  ⟨rfl, rfl, rfl, rfl, fun _ => le_refl _⟩

theorem frel_contents {c : String} :
    ∀ {m1 m2 : List SearchResult}, List.Forall₂ (FusionRel c) m1 m2 →
      m1.map (fun t => t.content) = m2.map (fun t => t.content) := by
  intro m1 m2 h
  induction h with
  | nil => rfl
  | cons h1 _ ih => simp only [List.map_cons, h1.1, ih]

theorem frel_any {c x : String} {m1 m2 : List SearchResult}
    (h : List.Forall₂ (FusionRel c) m1 m2) :
    m1.any (fun e => e.content = x) = m2.any (fun e => e.content = x) := by
  induction h with
  | nil => rfl
  | cons h1 _ ih => simp only [List.any_cons, h1.1, ih]

theorem frel_map_update_kw {c : String} {m1 m2 : List SearchResult}
    (h : List.Forall₂ (FusionRel c) m1 m2) (r : SearchResult) :
    List.Forall₂ (FusionRel c)
      (m1.map (fun e => if e.content = r.content
        then { e with keyword_score := r.similarity_score } else e))
      (m2.map (fun e => if e.content = r.content
        then { e with keyword_score := r.similarity_score } else e)) := by
  induction h with
  | nil => exact List.Forall₂.nil
  | @cons a b l1 l2 h1 h2 ih =>
      rw [List.map_cons, List.map_cons]
      refine List.Forall₂.cons ?_ ih
      by_cases he : a.content = r.content
      · rw [if_pos he, if_pos (h1.1 ▸ he)]
        exact ⟨h1.1, h1.2.1, rfl, h1.2.2.2.1, fun hcc => h1.2.2.2.2 hcc⟩
      · rw [if_neg he, if_neg (fun hb => he (h1.1 ▸ hb))]
        exact h1

theorem frel_map_update_sem {c : String} {m1 m2 : List SearchResult}
    (h : List.Forall₂ (FusionRel c) m1 m2) (r : SearchResult) :
    List.Forall₂ (FusionRel c)
      (m1.map (fun e => if e.content = r.content
        then { e with semantic_score := r.similarity_score } else e))
      (m2.map (fun e => if e.content = r.content
        then { e with semantic_score := r.similarity_score } else e)) := by
  induction h with
  | nil => exact List.Forall₂.nil
  | @cons a b l1 l2 h1 h2 ih =>
      rw [List.map_cons, List.map_cons]
      refine List.Forall₂.cons ?_ ih
      by_cases he : a.content = r.content
      · rw [if_pos he, if_pos (h1.1 ▸ he)]
        exact ⟨h1.1, h1.2.1, h1.2.2.1, rfl, fun hcc => h1.2.2.2.2 hcc⟩
      · rw [if_neg he, if_neg (fun hb => he (h1.1 ▸ hb))]
        exact h1

theorem frel_addKw {c : String} {m1 m2 : List SearchResult}
    (h : List.Forall₂ (FusionRel c) m1 m2) (r : SearchResult) :
    List.Forall₂ (FusionRel c) (addKw m1 r) (addKw m2 r) := by
  unfold addKw
  rw [← frel_any h]
  by_cases hc : m1.any (fun e => e.content = r.content) = true
  · rw [if_pos hc, if_pos hc]
    exact frel_map_update_kw h r
  · rw [if_neg hc, if_neg hc]
    exact List.rel_append h (List.Forall₂.cons (frel_refl _) List.Forall₂.nil)

theorem frel_addSem {c : String} {m1 m2 : List SearchResult}
    (h : List.Forall₂ (FusionRel c) m1 m2) (r : SearchResult) :
    List.Forall₂ (FusionRel c) (addSem m1 r) (addSem m2 r) := by
  unfold addSem
  rw [← frel_any h]
  by_cases hc : m1.any (fun e => e.content = r.content) = true
  · rw [if_pos hc, if_pos hc]
    exact frel_map_update_sem h r
  · rw [if_neg hc, if_neg hc]
    exact List.rel_append h (List.Forall₂.cons (frel_refl _) List.Forall₂.nil)

theorem frel_foldl_addKw {c : String} (kw : List SearchResult) :
    ∀ {m1 m2 : List SearchResult}, List.Forall₂ (FusionRel c) m1 m2 →
      List.Forall₂ (FusionRel c) (kw.foldl addKw m1) (kw.foldl addKw m2) := by
  induction kw with
  | nil => intro m1 m2 h; exact h
  | cons r rs ih =>
      intro m1 m2 h
      rw [List.foldl_cons, List.foldl_cons]
      exact ih (frel_addKw h r)

theorem frel_foldl_addSem {c : String} (sem : List SearchResult) :
    ∀ {m1 m2 : List SearchResult}, List.Forall₂ (FusionRel c) m1 m2 →
      List.Forall₂ (FusionRel c) (sem.foldl addSem m1) (sem.foldl addSem m2) := by
  induction sem with
  | nil => intro m1 m2 h; exact h
  | cons r rs ih =>
      intro m1 m2 h
      rw [List.foldl_cons, List.foldl_cons]
      exact ih (frel_addSem h r)

theorem contents_map_update_kw (m : List SearchResult) (r : SearchResult) :
    (m.map (fun e => if e.content = r.content
      then { e with keyword_score := r.similarity_score } else e)).map (fun t => t.content)
      = m.map (fun t => t.content) := by
  rw [List.map_map]
  apply List.map_congr_left
  intro e _
  by_cases he : e.content = r.content
  · simp [Function.comp, he]
  · simp [Function.comp, he]

theorem contents_map_update_sem (m : List SearchResult) (r : SearchResult) :
    (m.map (fun e => if e.content = r.content
      then { e with semantic_score := r.similarity_score } else e)).map (fun t => t.content)
      = m.map (fun t => t.content) := by
  rw [List.map_map]
  apply List.map_congr_left
  intro e _
  by_cases he : e.content = r.content
  · simp [Function.comp, he]
  · simp [Function.comp, he]

theorem not_mem_contents_of_any_false {m : List SearchResult} {x : String}
    (hc : ¬ m.any (fun e => e.content = x) = true) : x ∉ m.map (fun t => t.content) := by
  intro hx
  obtain ⟨e, he, hex⟩ := List.mem_map.mp hx
  exact hc (List.any_eq_true.mpr ⟨e, he, by simpa using hex⟩)

theorem nodup_contents_addKw {m : List SearchResult} (r : SearchResult)
    (h : (m.map (fun t => t.content)).Nodup) :
    ((addKw m r).map (fun t => t.content)).Nodup := by
  unfold addKw
  by_cases hc : m.any (fun e => e.content = r.content) = true
  · rw [if_pos hc, contents_map_update_kw]
    exact h
  · rw [if_neg hc, List.map_append]
    refine List.Nodup.append h (List.nodup_singleton _) ?_
    intro a ha hb
    rcases List.mem_singleton.mp hb with rfl
    exact not_mem_contents_of_any_false hc ha

theorem nodup_contents_addSem {m : List SearchResult} (r : SearchResult)
    (h : (m.map (fun t => t.content)).Nodup) :
    ((addSem m r).map (fun t => t.content)).Nodup := by
  unfold addSem
  by_cases hc : m.any (fun e => e.content = r.content) = true
  · rw [if_pos hc, contents_map_update_sem]
    exact h
  · rw [if_neg hc, List.map_append]
    refine List.Nodup.append h (List.nodup_singleton _) ?_
    intro a ha hb
    rcases List.mem_singleton.mp hb with rfl
    exact not_mem_contents_of_any_false hc ha

theorem nodup_contents_foldl_addKw (kw : List SearchResult) :
    ∀ {m : List SearchResult}, (m.map (fun t => t.content)).Nodup →
      ((kw.foldl addKw m).map (fun t => t.content)).Nodup := by
  induction kw with
  | nil => intro m h; exact h
  | cons r rs ih =>
      intro m h
      rw [List.foldl_cons]
      exact ih (nodup_contents_addKw r h)

theorem nodup_contents_foldl_addSem (sem : List SearchResult) :
    ∀ {m : List SearchResult}, (m.map (fun t => t.content)).Nodup →
      ((sem.foldl addSem m).map (fun t => t.content)).Nodup := by
  induction sem with
  | nil => intro m h; exact h
  | cons r rs ih =>
      intro m h
      rw [List.foldl_cons]
      exact ih (nodup_contents_addSem r h)

theorem contents_vecEntry_map (l : List SearchResult) :
    ((l.map vecEntry).map (fun t => t.content)) = l.map (fun t => t.content) := by
  rw [List.map_map]
  rfl

set_option maxHeartbeats 1000000 in
/-- The two fusion base maps (vector entries of the normalized vector lists)
are pointwise related when the vector input lists differ only in the raised
similarity score of the chunk `x`. -/
theorem frel_base (pre post : List SearchResult) (x : SearchResult) (s' : ℚ)
    (hss : x.similarity_score ≤ s')
    (hnodup : ((pre ++ x :: post).map (fun t => t.content)).Nodup) :
    List.Forall₂ (FusionRel x.content)
      ((normalize_scores (pre ++ x :: post)).map vecEntry)
      ((normalize_scores (pre ++ { x with similarity_score := s' } :: post)).map vecEntry) := by
  have hxm : x.content ∉ pre.map (fun t => t.content)
      ∧ x.content ∉ post.map (fun t => t.content) := by
    rw [List.map_append, List.map_cons] at hnodup
    have h2 := List.nodup_middle.mp hnodup
    rw [List.nodup_cons] at h2
    exact ⟨fun hm => h2.1 (List.mem_append.mpr (Or.inl hm)),
           fun hm => h2.1 (List.mem_append.mpr (Or.inr hm))⟩
  rw [normalize_scores_eq_map (by simp), normalize_scores_eq_map (by simp),
    List.map_map, List.map_map, List.forall₂_map_left_iff, List.forall₂_map_right_iff]
  refine List.rel_append ?_ (List.Forall₂.cons ?_ ?_)
  · refine List.forall₂_same.mpr ?_
    intro e hmem
    exact ⟨rfl, rfl, rfl, rfl,
      fun hcc => absurd (List.mem_map.mpr ⟨e, hmem, hcc⟩) hxm.1⟩
  · refine ⟨rfl, rfl, rfl, rfl, fun _ => ?_⟩
    show normVal (listMaxD ((pre ++ x :: post).map (fun t => t.similarity_score)))
        (listMinD ((pre ++ x :: post).map (fun t => t.similarity_score))) x.similarity_score
      ≤ normVal
        (listMaxD ((pre ++ { x with similarity_score := s' } :: post).map
          (fun t => t.similarity_score)))
        (listMinD ((pre ++ { x with similarity_score := s' } :: post).map
          (fun t => t.similarity_score))) s'
    simp only [List.map_append, List.map_cons]
    apply normVal_mono
    exact hss
  · refine List.forall₂_same.mpr ?_
    intro e hmem
    exact ⟨rfl, rfl, rfl, rfl,
      fun hcc => absurd (List.mem_map.mpr ⟨e, hmem, hcc⟩) hxm.2⟩

/-- Claim C8: for fixed keyword and semantic result lists and alpha > 0,
raising one chunk's raw vector similarity score (all other inputs unchanged,
chunk contents pairwise distinct) cannot lower that chunk's fused score after
per-list min-max normalization and fusion. -/
theorem fusion_vector_score_monotone
    (pre post kw sem : List SearchResult) (x : SearchResult) (s' alpha : ℚ)
    (halpha : 0 < alpha) (hs : x.similarity_score ≤ s')
    (hnodup : ((pre ++ x :: post).map (fun t => t.content)).Nodup)
    (e e' : SearchResult)
    (he : e ∈ combine_multiple_search_results (pre ++ x :: post) kw sem alpha)
    (he' : e' ∈ combine_multiple_search_results
        (pre ++ { x with similarity_score := s' } :: post) kw sem alpha)
    (hec : e.content = x.content) (hec' : e'.content = x.content) :
    e.similarity_score ≤ e'.similarity_score := by
  obtain ⟨f, hf, rfl⟩ := mem_combine_iff.mp he
  obtain ⟨f', hf', rfl⟩ := mem_combine_iff.mp he'
  have hfc : f.content = x.content := hec
  have hfc' : f'.content = x.content := hec'
  have hforall : List.Forall₂ (FusionRel x.content)
      (buildContentMap (normalize_scores (pre ++ x :: post)) (normalize_scores kw)
        (normalize_scores sem))
      (buildContentMap (normalize_scores (pre ++ { x with similarity_score := s' } :: post))
        (normalize_scores kw) (normalize_scores sem)) := by
    unfold buildContentMap
    exact frel_foldl_addSem _ (frel_foldl_addKw _ (frel_base pre post x s' hs hnodup))
  have hnodupbm : ((buildContentMap (normalize_scores (pre ++ x :: post)) (normalize_scores kw)
      (normalize_scores sem)).map (fun t => t.content)).Nodup := by
    unfold buildContentMap
    apply nodup_contents_foldl_addSem
    apply nodup_contents_foldl_addKw
    rw [contents_vecEntry_map, normalize_scores_contents]
    exact hnodup
  set bm := buildContentMap (normalize_scores (pre ++ x :: post)) (normalize_scores kw)
    (normalize_scores sem) with hbmdef
  set bm' := buildContentMap
    (normalize_scores (pre ++ { x with similarity_score := s' } :: post))
    (normalize_scores kw) (normalize_scores sem) with hbmdef'
  have hcont : bm.map (fun t => t.content) = bm'.map (fun t => t.content) :=
    frel_contents hforall
  have hlen : bm.length = bm'.length := hforall.length_eq
  obtain ⟨i, hi, hfi⟩ := List.mem_iff_getElem.mp hf
  obtain ⟨j, hj, hfj⟩ := List.mem_iff_getElem.mp hf'
  have hi' : i < bm'.length := hlen ▸ hi
  have hRi : FusionRel x.content bm[i] bm'[i] := by
    have h2 := hforall.get (show i < bm.length from hi) (show i < bm'.length from hi')
    simpa [List.get_eq_getElem] using h2
  have hc1 : bm'[i].content = x.content := by
    rw [← hRi.1, hfi, hfc]
  have hnodupbm' : (bm'.map (fun t => t.content)).Nodup := hcont ▸ hnodupbm
  have hmi : i < (bm'.map (fun t => t.content)).length := by
    rw [List.length_map]
    exact hi'
  have hmj : j < (bm'.map (fun t => t.content)).length := by
    rw [List.length_map]
    exact hj
  have hij : j = i :=
    (@List.Nodup.getElem_inj_iff _ _ hnodupbm' j hmj i hmi).mp (by
      rw [List.getElem_map, List.getElem_map, hfj, hc1, hfc'])
  subst hij
  have hRff' : FusionRel x.content f f' := by
    rw [hfi] at hRi
    rw [show bm'[j] = f' from hfj] at hRi
    exact hRi
  obtain ⟨hcnt, hq, hkw, hsem, hvec⟩ := hRff'
  show combinedScore alpha f ≤ combinedScore alpha f'
  unfold combinedScore
  rw [hkw, hsem]
  have h1 := hvec hfc
  have h2 := mul_le_mul_of_nonneg_left h1 (le_of_lt halpha)
  linarith

/-- Witness for C8 at a concrete input (a single vector chunk, score raised
from 1 to 2; the fused scores coincide at 1/2, so the inequality holds). -/
theorem fusion_vector_score_monotone_witness :
    ({ mkRes "a" (1/2) 1 with vector_score := 1 }).similarity_score
      ≤ ({ mkRes "a" (1/2) 1 with vector_score := 1 }).similarity_score :=
  fusion_vector_score_monotone [] [] [] [] (mkRes "a" 1 1) 2 (1/2)
    (by norm_num) (by norm_num [mkRes]) (by simp [mkRes])
    { mkRes "a" (1/2) 1 with vector_score := 1 }
    { mkRes "a" (1/2) 1 with vector_score := 1 }
    (by norm_num [combine_multiple_search_results, normalize_scores_cons, normalize_scores_nil,
      listMaxD, listMinD, normVal, buildContentMap, vecEntry, addKw, addSem, combinedScore,
      sortByDesc, insertDesc, mem_sortByDesc, mkRes])
    (by norm_num [combine_multiple_search_results, normalize_scores_cons, normalize_scores_nil,
      listMaxD, listMinD, normVal, buildContentMap, vecEntry, addKw, addSem, combinedScore,
      sortByDesc, insertDesc, mem_sortByDesc, mkRes])
    (by simp [mkRes]) (by simp [mkRes])

end PdfRag
